import Mathlib

/-!
Verification of the draft scoring and session-state engine of
`draft_helper_step2_vorp.py` (fantasy draft helper, VORP-based).

Shallow embedding conventions:
* projected points are rationals (`ℚ`);
* Python float values produced by the scorer live in `EQ`, an extended
  rational type with `negInf`, `posInf` and `nan` mirroring IEEE special
  values (`float('inf')` sentinels and `-inf * 0`);
* pandas `sort_values(..., ascending=False)` is modelled by
  `List.insertionSort` with a descending order (only the value at a given
  rank matters for what the code reads, and the three-key candidate sort is
  stable, which insertion sort preserves);
* the session history list `drafted` is stored most-recent-first, so the
  Python `list.append` / `list.pop()` pair becomes cons / head;
* Python dict `.get(k, d)` becomes `Option.getD`;
* the interactive failure paths (`print` + `continue`) are modelled by
  `Except` errors named as in the specification.
-/

namespace DraftHelper

/-- The fixed base positions (`BASE_POSITIONS`); FLEX is capacity only. -/
inductive Pos where
  | QB | RB | WR | TE | K | DST
  deriving DecidableEq, Repr

instance : Fintype Pos :=
  ⟨⟨[Pos.QB, Pos.RB, Pos.WR, Pos.TE, Pos.K, Pos.DST], by decide⟩,
   fun x => by cases x <;> decide⟩

/-- A row of the cleaned player table: `player`, `position`, `proj_points`. -/
structure Player where
  player : String
  position : Pos
  proj_points : ℚ
  deriving DecidableEq, Repr

/-- Extended rational mirroring the Python floats the engine produces:
ordinary values, `float('inf')`, `float('-inf')` and `nan`.  The order places
`nan` at the bottom, matching pandas' `na_position='last'` for the descending
sorts this program performs. -/
inductive EQ where
  | nan
  | negInf
  | fin (q : ℚ)
  | posInf
  deriving DecidableEq, Repr

/-- Boolean order on `EQ`: `nan < negInf < fin _ < posInf`. -/
def EQ.ble : EQ → EQ → Bool
  | .nan, _ => true
  | _, .nan => false
  | .negInf, _ => true
  | _, .negInf => false
  | .fin a, .fin b => a ≤ b
  | _, .posInf => true
  | .posInf, _ => false

instance : LinearOrder EQ where
  le a b := EQ.ble a b = true
  le_refl a := by cases a <;> simp [EQ.ble]
  le_trans a b c := by
    cases a <;> cases b <;> cases c <;>
      simp only [EQ.ble, decide_eq_true_eq] <;>
      intro h1 h2 <;>
      first
        | trivial
        | exact absurd h1 (by decide)
        | exact absurd h2 (by decide)
        | exact le_trans h1 h2
  le_antisymm a b := by
    cases a <;> cases b <;>
      simp only [EQ.ble, decide_eq_true_eq] <;>
      intro h1 h2 <;>
      first
        | trivial
        | exact absurd h1 (by decide)
        | exact absurd h2 (by decide)
        | exact congrArg EQ.fin (le_antisymm h1 h2)
  le_total a b := by
    cases a <;> cases b <;>
      simp only [EQ.ble, decide_eq_true_eq] <;>
      first
        | exact Or.inl trivial
        | exact Or.inr trivial
        | exact le_total _ _
  decidableLE := fun a b => inferInstanceAs (Decidable (EQ.ble a b = true))

instance (a b : EQ) : Decidable (a ≤ b) :=
  inferInstanceAs (Decidable (EQ.ble a b = true))

instance (a b : EQ) : Decidable (a < b) :=
  inferInstanceAs (Decidable (a ≤ b ∧ ¬ b ≤ a))

/-- `p - r` where `p` is a finite float and `r` may be infinite
(`vorp = r.proj_points - repl`). -/
def EQ.subOf (p : ℚ) : EQ → EQ
  | .fin b => .fin (p - b)
  | .posInf => .negInf
  | .negInf => .posInf
  | .nan => .nan

/-- `v * w` for a float `v` and a finite weight `w` (`adj = vorp * w`),
with the IEEE rules for infinities and zero. -/
def EQ.mulQ : EQ → ℚ → EQ
  | .nan, _ => .nan
  | .fin a, w => .fin (a * w)
  | .negInf, w => if 0 < w then .negInf else if w < 0 then .posInf else .nan
  | .posInf, w => if 0 < w then .posInf else if w < 0 then .negInf else .nan

/-- Descending order on players by `proj_points`
(`sort_values('proj_points', ascending=False)`; a stable sort, and only
value-at-index is ever read, so any sorted permutation is faithful). -/
def plRel (a b : Player) : Prop := b.proj_points ≤ a.proj_points

instance : DecidableRel plRel := fun a b =>
  inferInstanceAs (Decidable (b.proj_points ≤ a.proj_points))

instance : IsTotal Player plRel := ⟨fun a b => (le_total b.proj_points a.proj_points).imp id id⟩

instance : IsTrans Player plRel := ⟨fun _ _ _ h1 h2 => le_trans h2 h1⟩

/-- `compute_replacement_points` for one base position: with
`N = teams * starters_by_pos.get(pos, 0)`, return `inf` when `N ≤ 0` or no
player remains at `pos`, else the `proj_points` at zero-based index
`min(max(N-1,0), len(pool)-1)` of the position's pool sorted descending. -/
def compute_replacement_points (available : List Player) (teams : ℤ)
    (starters_by_pos : Pos → ℤ) (pos : Pos) : EQ :=
  let N : ℤ := teams * starters_by_pos pos
  if N ≤ 0 then .posInf
  else
    let pool := (available.filter (fun r => r.position = pos)).insertionSort plRel
    if pool.isEmpty then .posInf
    else
      let idx : ℕ := min (max (N - 1) 0).toNat (pool.length - 1)
      .fin ((pool.map Player.proj_points).getD idx 0)

/-- The three need states. -/
inductive NeedState where
  | need | bench | blocked
  deriving DecidableEq, Repr

/-- FLEX accepts RB/WR/TE (`flex_accept = {'RB','WR','TE'}`). -/
def flexAccept (p : Pos) : Bool :=
  match p with
  | .RB | .WR | .TE => true
  | _ => false

/-- Roster starter configuration: per-position starters plus the FLEX
capacity (`roster_slots`, a dict that also holds the `FLEX` key). -/
structure RosterConfig where
  starters : Pos → ℤ
  flex : ℤ

/-- The user's per-position pick counters plus the FLEX counter
(`my_counts`, a `defaultdict(int)` also keyed by `'FLEX'`). -/
structure MyCounts where
  base : Pos → ℤ
  flex : ℤ

instance : DecidableEq MyCounts := fun a b =>
  decidable_of_iff (a.base = b.base ∧ a.flex = b.flex)
    (by cases a; cases b; simp)

/-- The all-zero counters a session starts with. -/
def MyCounts.zero : MyCounts := ⟨fun _ => 0, 0⟩

instance {ε α : Type} [DecidableEq ε] [DecidableEq α] : DecidableEq (Except ε α) :=
  fun a b =>
    match a, b with
    | .ok x, .ok y => decidable_of_iff (x = y) (by simp)
    | .error e, .error f => decidable_of_iff (e = f) (by simp)
    | .ok _, .error _ => isFalse (fun h => Except.noConfusion h)
    | .error _, .ok _ => isFalse (fun h => Except.noConfusion h)

/-- `compute_my_need_states`: classify each base position as
need / bench / blocked from the roster configuration and `my_counts`. -/
def compute_my_need_states (roster_slots : RosterConfig)
    (bench_slots : Pos → ℤ) (my_counts : MyCounts) (pos : Pos) : NeedState :=
  let flex_left : ℤ := max (roster_slots.flex - my_counts.flex) 0
  let starters := roster_slots.starters pos
  let bench := bench_slots pos
  let used := my_counts.base pos
  if used < starters then .need
  else if flexAccept pos ∧ 0 < flex_left then .need
  else if used - starters < bench then .bench
  else .blocked

/-- One output row of `candidate_scores`. -/
structure ScoreRow where
  player : String
  position : Pos
  proj_points : ℚ
  vorp : EQ
  adj_score : EQ
  need_state : NeedState
  deriving DecidableEq, Repr

/-- The sort key of a score row: `(adj_score, vorp, proj_points)`,
compared lexicographically. -/
def rowKey (r : ScoreRow) : Lex (EQ × Lex (EQ × ℚ)) :=
  toLex (r.adj_score, toLex (r.vorp, r.proj_points))

/-- Descending three-key order
(`sort_values(['adj_score','vorp','proj_points'], ascending=False)`). -/
def rowRel (a b : ScoreRow) : Prop := rowKey b ≤ rowKey a

instance : DecidableRel rowRel := fun a b =>
  inferInstanceAs (Decidable (rowKey b ≤ rowKey a))

instance : IsTotal ScoreRow rowRel := ⟨fun a b => (le_total (rowKey b) (rowKey a)).imp id id⟩

instance : IsTrans ScoreRow rowRel := ⟨fun _ _ _ h1 h2 => le_trans h2 h1⟩

/-- The row built for one available player: `vorp = proj_points - repl`,
`state = my_needs.get(pos, 'blocked')`, `adj = vorp * weights.get(state, 0.1)`. -/
def scoreRow (replacement_points : Pos → EQ) (my_needs : Pos → Option NeedState)
    (weights : NeedState → Option ℚ) (r : Player) : ScoreRow :=
  let pos := r.position
  let repl := replacement_points pos
  let vorp := EQ.subOf r.proj_points repl
  let state := (my_needs pos).getD .blocked
  let w := (weights state).getD (1/10)
  { player := r.player, position := pos, proj_points := r.proj_points,
    vorp := vorp, adj_score := vorp.mulQ w, need_state := state }

/-- `candidate_scores`: score every available row and sort by
`(adj_score, vorp, proj_points)` descending. -/
def candidate_scores (available : List Player) (replacement_points : Pos → EQ)
    (my_needs : Pos → Option NeedState) (weights : NeedState → Option ℚ) :
    List ScoreRow :=
  (available.map (scoreRow replacement_points my_needs weights)).insertionSort rowRel

/-- The kind tag of a history event: `'drafted'` (league) or `'mine'`. -/
inductive EventKind where
  | drafted | mine
  deriving DecidableEq, Repr

/-- One history entry `(kind, name, position)` pushed by the mark commands. -/
structure Event where
  kind : EventKind
  name : String
  pos : Pos
  deriving DecidableEq, Repr

/-- The mutable session state of `main`: the ordered event list `drafted`
(most-recent-first here; Python appends and pops at the tail), the name set
`drafted_set`, and the counters `my_counts`. -/
structure Session where
  drafted : List Event
  drafted_set : Finset String
  my_counts : MyCounts
  deriving DecidableEq

/-- The empty session the program starts with. -/
def emptySession : Session := ⟨[], ∅, MyCounts.zero⟩

/-- The error taxonomy of the specification for the session operations. -/
inductive DraftError where
  | UnknownPlayer | AlreadyDrafted | NothingToUndo
  deriving DecidableEq, Repr

/-- `all_names = df['player'].tolist()`. -/
def allNames (pool : List Player) : List String := pool.map Player.player

/-- `df[df['player'] == name].iloc[0]['position']`: position of the first
pool row with this player name. -/
def lookupPos (pool : List Player) (name : String) : Option Pos :=
  (pool.find? (fun r => r.player = name)).map Player.position

/-- `available = df[~df['player'].isin(drafted)]`. -/
def availableOf (pool : List Player) (drafted_set : Finset String) :
    List Player :=
  pool.filter (fun r => r.player ∉ drafted_set)

/-- The league-drafted branch of the command loop: name checks, then push
`('drafted', name, pos)` and add the name to `drafted_set`. -/
def mark_league_drafted (pool : List Player) (s : Session) (name : String) :
    Except DraftError Session :=
  if name ∉ allNames pool then .error .UnknownPlayer
  else if name ∈ s.drafted_set then .error .AlreadyDrafted
  else
    match lookupPos pool name with
    | none => .error .UnknownPlayer
    | some pos =>
        .ok { drafted := ⟨.drafted, name, pos⟩ :: s.drafted,
              drafted_set := insert name s.drafted_set,
              my_counts := s.my_counts }

/-- Increment `my_counts[pos]`. -/
def MyCounts.incBase (c : MyCounts) (pos : Pos) : MyCounts :=
  ⟨fun q => if q = pos then c.base pos + 1 else c.base q, c.flex⟩

/-- Increment `my_counts['FLEX']`. -/
def MyCounts.incFlex (c : MyCounts) : MyCounts := ⟨c.base, c.flex + 1⟩

/-- The `mine <name>` branch: name checks, push `('mine', name, pos)`, add to
`drafted_set`, then increment `my_counts` — starter slot first, else a FLEX
slot for RB/WR/TE when FLEX capacity remains, else bench/overflow. -/
def mark_mine (pool : List Player) (roster_slots : RosterConfig)
    (s : Session) (name : String) : Except DraftError Session :=
  if name ∉ allNames pool then .error .UnknownPlayer
  else if name ∈ s.drafted_set then .error .AlreadyDrafted
  else
    match lookupPos pool name with
    | none => .error .UnknownPlayer
    | some pos =>
        let counts :=
          if s.my_counts.base pos < roster_slots.starters pos then
            s.my_counts.incBase pos
          else if flexAccept pos ∧ s.my_counts.flex < roster_slots.flex then
            s.my_counts.incFlex
          else
            s.my_counts.incBase pos
        .ok { drafted := ⟨.mine, name, pos⟩ :: s.drafted,
              drafted_set := insert name s.drafted_set,
              my_counts := counts }

/-- The `undo` branch: pop the last event; remove the name from `drafted_set`
only when the popped kind is `'drafted'` (`mine` undo is not implemented). -/
def undo (s : Session) : Except DraftError Session :=
  match s.drafted with
  | [] => .error .NothingToUndo
  | e :: rest =>
      .ok { drafted := rest,
            drafted_set :=
              if e.kind = .drafted then s.drafted_set.erase e.name
              else s.drafted_set,
            my_counts := s.my_counts }

/-- The set of player names appearing in a history list. -/
def historyNames (history : List Event) : Finset String :=
  (history.map Event.name).toFinset

/-- Sessions reachable from the empty session by any sequence of successful
mark-league-drafted, mark-mine and undo operations (failed commands leave the
state unchanged, so they do not enlarge this set). -/
inductive Reachable (pool : List Player) (roster_slots : RosterConfig) :
    Session → Prop where
  | empty : Reachable pool roster_slots emptySession
  | league {s s' : Session} {n : String} : Reachable pool roster_slots s →
      mark_league_drafted pool s n = .ok s' → Reachable pool roster_slots s'
  | mine {s s' : Session} {n : String} : Reachable pool roster_slots s →
      mark_mine pool roster_slots s n = .ok s' → Reachable pool roster_slots s'
  | pop {s s' : Session} : Reachable pool roster_slots s →
      undo s = .ok s' → Reachable pool roster_slots s'

/-- Sessions reachable when `undo` is only ever applied while the most recent
history event is a league-drafted one. -/
inductive ReachableND (pool : List Player) (roster_slots : RosterConfig) :
    Session → Prop where
  | empty : ReachableND pool roster_slots emptySession
  | league {s s' : Session} {n : String} : ReachableND pool roster_slots s →
      mark_league_drafted pool s n = .ok s' → ReachableND pool roster_slots s'
  | mine {s s' : Session} {n : String} : ReachableND pool roster_slots s →
      mark_mine pool roster_slots s n = .ok s' → ReachableND pool roster_slots s'
  | pop {s s' : Session} : ReachableND pool roster_slots s →
      (s.drafted.head?.map Event.kind = some .drafted) →
      undo s = .ok s' → ReachableND pool roster_slots s'

/-- Modelled from the spec: `write_state`/`read_state` (Session Snapshot I/O,
spec section 4.5) are referenced by `_test_state_rw.py` but are not present in
the source tree; the snapshot record of section 6 holds the configuration, the
full history as ordered triples, and `my_counts`.  File round-tripping is
treated as the identity on this record. -/
structure Snapshot where
  csv : String
  teams : ℤ
  starters : RosterConfig
  bench : Pos → ℤ
  weights : NeedState → Option ℚ
  top_n : ℤ
  history : List Event
  my_counts : MyCounts

/-- Modelled from the spec: `write_state` serializes the configuration plus
the session's `history` and `my_counts` into the snapshot record. -/
def write_state (csv : String) (teams : ℤ) (starters : RosterConfig)
    (bench : Pos → ℤ) (weights : NeedState → Option ℚ) (top_n : ℤ)
    (s : Session) : Snapshot :=
  ⟨csv, teams, starters, bench, weights, top_n, s.drafted, s.my_counts⟩

/-- Modelled from the spec: `read_state` reconstructs a session from a
snapshot; `drafted` is derived as exactly the set of names present in the
restored history, not stored redundantly. -/
def read_state (snap : Snapshot) : Session :=
  { drafted := snap.history,
    drafted_set := historyNames snap.history,
    my_counts := snap.my_counts }

/-- The command loop keeps the previous session state when a command fails
(the failing branches print a message and `continue`). -/
def applyResult (s : Session) : Except DraftError Session → Session
  | .ok s' => s'
  | .error _ => s

/-- The default need-state weights `{'need': 1.0, 'bench': 0.4, 'blocked': 0.1}`. -/
def weightsDefault : NeedState → Option ℚ
  | .need => some 1
  | .bench => some (2/5)
  | .blocked => some (1/10)

/-- The four-player scenario pool of the specification:
`{A/RB/10, B/RB/20, C/WR/15, D/WR/25}`. -/
def pool4 : List Player :=
  [⟨"A", .RB, 10⟩, ⟨"B", .RB, 20⟩, ⟨"C", .WR, 15⟩, ⟨"D", .WR, 25⟩]

/-- Starters `{RB:1, WR:1}` for the scenario. -/
def starters4 : Pos → ℤ := fun p => if p = .RB ∨ p = .WR then 1 else 0

/-- Scenario roster configuration: starters `{RB:1, WR:1}`, no FLEX. -/
def roster4 : RosterConfig := ⟨starters4, 0⟩

/-- Zero bench capacity everywhere. -/
def bench0 : Pos → ℤ := fun _ => 0

/-- A one-player pool used for the undo counterexample. -/
def pool1 : List Player := [⟨"A", .RB, 10⟩]

/-- Roster with a single RB starter slot and nothing else. -/
def roster1 : RosterConfig := ⟨fun p => if p = .RB then 1 else 0, 0⟩

/-- A two-player RB pool used for the replacement-monotonicity counterexample. -/
def pool2 : List Player := [⟨"B", .RB, 20⟩, ⟨"A", .RB, 10⟩]

/-- Starters `{RB:1}` only. -/
def startersRB1 : Pos → ℤ := fun p => if p = .RB then 1 else 0

instance : IsAntisymm ℚ (fun a b : ℚ => b ≤ a) :=
  ⟨fun _ _ h1 h2 => le_antisymm h2 h1⟩

theorem EQ.le_def (a b : EQ) : a ≤ b ↔ EQ.ble a b = true := Iff.rfl

theorem lookupPos_some {pool : List Player} {n : String}
    (h : n ∈ allNames pool) : ∃ pos, lookupPos pool n = some pos := by
  obtain ⟨r, hr, hrn⟩ := List.mem_map.mp h
  have hsome : (pool.find? (fun r => r.player = n)).isSome := by
    rw [List.find?_isSome]
    exact ⟨r, hr, by simp [hrn]⟩
  obtain ⟨r', hr'⟩ := Option.isSome_iff_exists.mp hsome
  exact ⟨r'.position, by simp [lookupPos, hr']⟩

theorem mark_league_drafted_ok {pool : List Player} {s : Session}
    {n : String} {s' : Session}
    (h : mark_league_drafted pool s n = .ok s') :
    n ∉ s.drafted_set ∧ ∃ pos, lookupPos pool n = some pos ∧
      s' = ⟨⟨.drafted, n, pos⟩ :: s.drafted, insert n s.drafted_set,
            s.my_counts⟩ := by
  unfold mark_league_drafted at h
  split at h
  · exact Except.noConfusion h
  · split at h
    · exact Except.noConfusion h
    · rename_i h2
      split at h
      · exact Except.noConfusion h
      · rename_i pos hpos
        exact ⟨h2, pos, hpos, by cases h; rfl⟩

theorem mark_mine_ok {pool : List Player} {roster_slots : RosterConfig}
    {s : Session} {n : String} {s' : Session}
    (h : mark_mine pool roster_slots s n = .ok s') :
    n ∉ s.drafted_set ∧ ∃ pos, lookupPos pool n = some pos ∧
      s' = ⟨⟨.mine, n, pos⟩ :: s.drafted, insert n s.drafted_set,
        if s.my_counts.base pos < roster_slots.starters pos then
          s.my_counts.incBase pos
        else if flexAccept pos ∧ s.my_counts.flex < roster_slots.flex then
          s.my_counts.incFlex
        else s.my_counts.incBase pos⟩ := by
  unfold mark_mine at h
  split at h
  · exact Except.noConfusion h
  · split at h
    · exact Except.noConfusion h
    · rename_i h2
      split at h
      · exact Except.noConfusion h
      · rename_i pos hpos
        exact ⟨h2, pos, hpos, by cases h; rfl⟩

theorem undo_ok {s s' : Session} (h : undo s = .ok s') :
    ∃ e rest, s.drafted = e :: rest ∧
      s' = ⟨rest,
        if e.kind = .drafted then s.drafted_set.erase e.name
        else s.drafted_set, s.my_counts⟩ := by
  unfold undo at h
  split at h
  · exact Except.noConfusion h
  · rename_i e rest heq
    exact ⟨e, rest, heq, by cases h; rfl⟩

theorem mark_league_cases (pool : List Player) (s : Session) (n : String) :
    (n ∉ allNames pool ∧
        mark_league_drafted pool s n = .error .UnknownPlayer) ∨
    (n ∈ allNames pool ∧ n ∈ s.drafted_set ∧
        mark_league_drafted pool s n = .error .AlreadyDrafted) ∨
    (n ∈ allNames pool ∧ n ∉ s.drafted_set ∧
        ∃ s', mark_league_drafted pool s n = .ok s') := by
  by_cases hn : n ∈ allNames pool
  · by_cases hd : n ∈ s.drafted_set
    · exact .inr (.inl ⟨hn, hd, by
        unfold mark_league_drafted
        rw [if_neg (not_not_intro hn), if_pos hd]⟩)
    · obtain ⟨pos, hpos⟩ := lookupPos_some hn
      exact .inr (.inr ⟨hn, hd, _, by
        unfold mark_league_drafted
        rw [if_neg (not_not_intro hn), if_neg hd, hpos]⟩)
  · exact .inl ⟨hn, by unfold mark_league_drafted; rw [if_pos hn]⟩

theorem mark_mine_cases (pool : List Player) (roster_slots : RosterConfig)
    (s : Session) (n : String) :
    (n ∉ allNames pool ∧
        mark_mine pool roster_slots s n = .error .UnknownPlayer) ∨
    (n ∈ allNames pool ∧ n ∈ s.drafted_set ∧
        mark_mine pool roster_slots s n = .error .AlreadyDrafted) ∨
    (n ∈ allNames pool ∧ n ∉ s.drafted_set ∧
        ∃ s', mark_mine pool roster_slots s n = .ok s') := by
  by_cases hn : n ∈ allNames pool
  · by_cases hd : n ∈ s.drafted_set
    · exact .inr (.inl ⟨hn, hd, by
        unfold mark_mine
        rw [if_neg (not_not_intro hn), if_pos hd]⟩)
    · obtain ⟨pos, hpos⟩ := lookupPos_some hn
      exact .inr (.inr ⟨hn, hd, _, by
        unfold mark_mine
        rw [if_neg (not_not_intro hn), if_neg hd, hpos]⟩)
  · exact .inl ⟨hn, by unfold mark_mine; rw [if_pos hn]⟩

/-- C4: for every roster configuration, bench mapping and `my_counts`, the
need state of each base position P is `need` if `my_counts[P] < starters[P]`;
else `need` if P is one of RB/WR/TE and `max(flex_starters - my_counts[FLEX], 0) > 0`;
else `bench` if `my_counts[P] - starters[P] < bench[P]`; else `blocked`. -/
theorem need_state_formula (roster_slots : RosterConfig)
    (bench_slots : Pos → ℤ) (my_counts : MyCounts) (pos : Pos) :
    compute_my_need_states roster_slots bench_slots my_counts pos =
      (if my_counts.base pos < roster_slots.starters pos then .need
       else if (pos = .RB ∨ pos = .WR ∨ pos = .TE) ∧
           0 < max (roster_slots.flex - my_counts.flex) 0 then .need
       else if my_counts.base pos - roster_slots.starters pos <
           bench_slots pos then .bench
       else .blocked) := by
  cases pos <;> simp [compute_my_need_states, flexAccept]

/-- C6: `undo` on a non-empty history pops exactly the last event; a
`league_drafted` event's name is removed from `drafted_set`, while a `mine`
event leaves `drafted_set` untouched, and `my_counts` is never changed. -/
theorem undo_pops_last_event (s : Session) (e : Event) (rest : List Event)
    (h : s.drafted = e :: rest) :
    undo s = .ok ⟨rest,
      if e.kind = .drafted then s.drafted_set.erase e.name
      else s.drafted_set,
      s.my_counts⟩ := by
  unfold undo
  rw [h]

/-- Witness for C6: undoing a `mine` event pops it from the history but
leaves the drafted set and the counters unchanged. -/
theorem undo_pops_last_event_witness :
    undo ⟨[⟨.mine, "A", .RB⟩], {"A"}, MyCounts.zero⟩ =
      .ok ⟨[], {"A"}, MyCounts.zero⟩ := by
  have h := undo_pops_last_event ⟨[⟨.mine, "A", .RB⟩], {"A"}, MyCounts.zero⟩
    ⟨.mine, "A", .RB⟩ [] rfl
  simpa using h

/-- C5: on every successful `mark_mine` of a player at position `pos`,
`my_counts` is updated by exactly one increment, chosen by strict precedence:
the position's starter slot if unfilled, else a FLEX slot for RB/WR/TE when
FLEX capacity remains, else the position's bench/overflow count. -/
theorem mark_mine_increment_precedence {pool : List Player}
    {roster_slots : RosterConfig} {s : Session} {n : String} {s' : Session}
    {pos : Pos} (h : mark_mine pool roster_slots s n = .ok s')
    (hpos : lookupPos pool n = some pos) :
    (s.my_counts.base pos < roster_slots.starters pos →
      s'.my_counts = s.my_counts.incBase pos) ∧
    (¬ s.my_counts.base pos < roster_slots.starters pos →
      (flexAccept pos ∧ s.my_counts.flex < roster_slots.flex) →
      s'.my_counts = s.my_counts.incFlex) ∧
    (¬ s.my_counts.base pos < roster_slots.starters pos →
      ¬ (flexAccept pos ∧ s.my_counts.flex < roster_slots.flex) →
      s'.my_counts = s.my_counts.incBase pos) := by
  obtain ⟨-, pos', hpos', hs'⟩ := mark_mine_ok h
  rw [hpos] at hpos'
  cases Option.some.inj hpos'
  refine ⟨fun h1 => ?_, fun h1 h2 => ?_, fun h1 h2 => ?_⟩
  · rw [hs']; simp [h1]
  · rw [hs']; simp [h1, h2]
  · rw [hs']; simp [h1, h2]

/-- Witness for C5: the first `mine` pick at RB with an open RB starter slot
increments exactly the RB counter. -/
theorem mark_mine_increment_precedence_witness :
    (Session.my_counts ⟨[⟨.mine, "A", .RB⟩], {"A"},
        ⟨fun p => if p = .RB then 1 else 0, 0⟩⟩) =
      MyCounts.zero.incBase .RB := by
  have h := (@mark_mine_increment_precedence pool1 roster1 emptySession "A"
    ⟨[⟨.mine, "A", .RB⟩], {"A"}, ⟨fun p => if p = .RB then 1 else 0, 0⟩⟩
    .RB (by decide) (by decide)).1 (by decide)
  exact h

/-- C7: the mark operations fail with `UnknownPlayer` exactly when the name
is not in the pool and with `AlreadyDrafted` exactly when it is already in
the drafted set (given the invariant that drafted names come from the pool);
`undo` fails with `NothingToUndo` exactly when the history is empty; every
failure leaves the session state unchanged. -/
theorem failure_conditions (pool : List Player)
    (roster_slots : RosterConfig) (s : Session) (n : String)
    (hsub : ∀ x ∈ s.drafted_set, x ∈ allNames pool) :
    (mark_league_drafted pool s n = .error .UnknownPlayer ↔
        n ∉ allNames pool) ∧
    (mark_league_drafted pool s n = .error .AlreadyDrafted ↔
        n ∈ s.drafted_set) ∧
    (mark_mine pool roster_slots s n = .error .UnknownPlayer ↔
        n ∉ allNames pool) ∧
    (mark_mine pool roster_slots s n = .error .AlreadyDrafted ↔
        n ∈ s.drafted_set) ∧
    (undo s = .error .NothingToUndo ↔ s.drafted = []) ∧
    (∀ e, mark_league_drafted pool s n = .error e →
        applyResult s (mark_league_drafted pool s n) = s) ∧
    (∀ e, mark_mine pool roster_slots s n = .error e →
        applyResult s (mark_mine pool roster_slots s n) = s) ∧
    (∀ e, undo s = .error e → applyResult s (undo s) = s) := by
  refine ⟨?_, ?_, ?_, ?_, ?_,
    fun e he => by rw [he]; rfl, fun e he => by rw [he]; rfl,
    fun e he => by rw [he]; rfl⟩
  · rcases mark_league_cases pool s n with ⟨hn, hr⟩ | ⟨hn, hd, hr⟩ | ⟨hn, hd, s', hr⟩
    · rw [hr]; simp [hn]
    · rw [hr]; simp [hn]
    · rw [hr]; simp [hn]
  · rcases mark_league_cases pool s n with ⟨hn, hr⟩ | ⟨hn, hd, hr⟩ | ⟨hn, hd, s', hr⟩
    · rw [hr]
      constructor
      · intro h
        exact DraftError.noConfusion (Except.error.inj h)
      · intro hd
        exact absurd (hsub n hd) hn
    · rw [hr]; simp [hd]
    · rw [hr]; simp [hd]
  · rcases mark_mine_cases pool roster_slots s n with ⟨hn, hr⟩ | ⟨hn, hd, hr⟩ | ⟨hn, hd, s', hr⟩
    · rw [hr]; simp [hn]
    · rw [hr]; simp [hn]
    · rw [hr]; simp [hn]
  · rcases mark_mine_cases pool roster_slots s n with ⟨hn, hr⟩ | ⟨hn, hd, hr⟩ | ⟨hn, hd, s', hr⟩
    · rw [hr]
      constructor
      · intro h
        exact DraftError.noConfusion (Except.error.inj h)
      · intro hd
        exact absurd (hsub n hd) hn
    · rw [hr]; simp [hd]
    · rw [hr]; simp [hd]
  · unfold undo
    cases hd : s.drafted <;> simp

/-- Witness for C7: on the singleton pool, an unknown name is rejected with
`UnknownPlayer`. -/
theorem failure_conditions_witness :
    mark_league_drafted pool1 emptySession "Z" = .error .UnknownPlayer ↔
      "Z" ∉ allNames pool1 :=
  (failure_conditions pool1 roster1 emptySession "Z" (by simp [emptySession])).1

theorem reachableND_inv {pool : List Player} {roster_slots : RosterConfig}
    {s : Session} (h : ReachableND pool roster_slots s) :
    s.drafted_set = historyNames s.drafted ∧
      (s.drafted.map Event.name).Nodup := by
  induction h with
  | empty => simp [emptySession, historyNames]
  | league h hstep ih =>
    obtain ⟨hset, hnd⟩ := ih
    obtain ⟨hd, pos, hpos, hs'⟩ := mark_league_drafted_ok hstep
    subst hs'
    rw [hset] at hd
    have hn := fun hmem => hd (List.mem_toFinset.mpr hmem)
    refine ⟨by simp [historyNames, hset], ?_⟩
    simp only [List.map_cons, List.nodup_cons]
    exact ⟨hn, hnd⟩
  | mine h hstep ih =>
    obtain ⟨hset, hnd⟩ := ih
    obtain ⟨hd, pos, hpos, hs'⟩ := mark_mine_ok hstep
    subst hs'
    rw [hset] at hd
    have hn := fun hmem => hd (List.mem_toFinset.mpr hmem)
    refine ⟨by simp [historyNames, hset], ?_⟩
    simp only [List.map_cons, List.nodup_cons]
    exact ⟨hn, hnd⟩
  | pop h hhead hstep ih =>
    obtain ⟨hset, hnd⟩ := ih
    obtain ⟨e, rest, heq, hs'⟩ := undo_ok hstep
    subst hs'
    rw [heq] at hset hnd hhead
    simp only [List.head?_cons, Option.map_some] at hhead
    have hkind : e.kind = .drafted := Option.some.inj hhead
    simp only [List.map_cons, List.nodup_cons] at hnd
    simp only [historyNames, List.map_cons, List.toFinset_cons] at hset
    refine ⟨?_, hnd.2⟩
    rw [if_pos hkind, hset]
    exact Finset.erase_insert (fun hmem => hnd.1 (List.mem_toFinset.mp hmem))

/-- C1 (amended): for every session reachable from the empty session by mark
operations and undos that only ever pop a league-drafted event, the drafted
set equals exactly the set of player names appearing in the history.  (The
unrestricted claim fails: see the counterexample below.) -/
theorem drafted_set_eq_history_names {pool : List Player}
    {roster_slots : RosterConfig} {s : Session}
    (h : ReachableND pool roster_slots s) :
    s.drafted_set = historyNames s.drafted :=
  (reachableND_inv h).1

/-- Witness for C1 (amended): after one `mine` pick the drafted set is
exactly the single name in the history. -/
theorem drafted_set_eq_history_names_witness :
    Session.drafted_set ⟨[⟨.mine, "A", .RB⟩], {"A"},
        ⟨fun p => if p = .RB then 1 else 0, 0⟩⟩ =
      historyNames (Session.drafted ⟨[⟨.mine, "A", .RB⟩], {"A"},
        ⟨fun p => if p = .RB then 1 else 0, 0⟩⟩) :=
  by
  have h1 : mark_mine pool1 roster1 emptySession "A" =
      .ok ⟨[⟨.mine, "A", .RB⟩], {"A"},
        ⟨fun p => if p = .RB then 1 else 0, 0⟩⟩ := by decide
  exact drafted_set_eq_history_names (ReachableND.mine ReachableND.empty h1)

/-- Counterexample to C1 as stated: marking a player as mine and then undoing
reaches a session whose history is empty while the drafted set still holds
the player's name (the `mine` undo does not remove it). -/
theorem drafted_set_eq_history_names_cex :
    Reachable pool1 roster1
      ⟨[], {"A"}, ⟨fun p => if p = .RB then 1 else 0, 0⟩⟩ ∧
    Session.drafted_set ⟨[], {"A"}, ⟨fun p => if p = .RB then 1 else 0, 0⟩⟩ ≠
      historyNames (Session.drafted
        ⟨[], {"A"}, ⟨fun p => if p = .RB then 1 else 0, 0⟩⟩) := by
  constructor
  · have h1 : mark_mine pool1 roster1 emptySession "A" =
        .ok ⟨[⟨.mine, "A", .RB⟩], {"A"},
          ⟨fun p => if p = .RB then 1 else 0, 0⟩⟩ := by decide
    have h2 : undo ⟨[⟨.mine, "A", .RB⟩], {"A"},
          ⟨fun p => if p = .RB then 1 else 0, 0⟩⟩ =
        .ok ⟨[], {"A"}, ⟨fun p => if p = .RB then 1 else 0, 0⟩⟩ := by decide
    exact Reachable.pop (Reachable.mine Reachable.empty h1) h2
  · decide

/-- C10: in every session reachable by any sequence of the three operations,
`my_counts[FLEX]` never exceeds the configured FLEX starter count, provided
that count is non-negative. -/
theorem flex_count_bounded {pool : List Player}
    {roster_slots : RosterConfig} {s : Session}
    (h : Reachable pool roster_slots s) (hflex : 0 ≤ roster_slots.flex) :
    s.my_counts.flex ≤ roster_slots.flex := by
  induction h with
  | empty => simpa [emptySession, MyCounts.zero] using hflex
  | league h hstep ih =>
    obtain ⟨-, pos, -, hs'⟩ := mark_league_drafted_ok hstep
    rw [hs']
    exact ih
  | mine h hstep ih =>
    obtain ⟨-, pos, -, hs'⟩ := mark_mine_ok hstep
    rw [hs']
    dsimp only
    split
    · simpa [MyCounts.incBase] using ih
    · rename_i hc
      split
      · rename_i hc2
        simpa [MyCounts.incFlex] using Int.add_one_le_iff.mpr hc2.2
      · simpa [MyCounts.incBase] using ih
  | pop h hstep ih =>
    obtain ⟨e, rest, -, hs'⟩ := undo_ok hstep
    rw [hs']
    exact ih

/-- Witness for C10: the empty session satisfies the FLEX bound for a roster
with no FLEX slots. -/
theorem flex_count_bounded_witness :
    emptySession.my_counts.flex ≤ roster1.flex :=
  @flex_count_bounded pool1 roster1 emptySession Reachable.empty (by decide)

/-- C9: restoring a written snapshot yields a session whose history and
`my_counts` are identical to the original's and whose drafted set is derived
as exactly the set of names present in the restored history. -/
theorem snapshot_roundtrip (csv : String) (teams : ℤ)
    (starters : RosterConfig) (bench : Pos → ℤ)
    (weights : NeedState → Option ℚ) (top_n : ℤ) (s : Session) :
    (read_state (write_state csv teams starters bench weights top_n s)).drafted
        = s.drafted ∧
    (read_state (write_state csv teams starters bench weights top_n s)).my_counts
        = s.my_counts ∧
    (read_state (write_state csv teams starters bench weights top_n s)).drafted_set
        = historyNames s.drafted :=
  ⟨rfl, rfl, rfl⟩

theorem sorted_points_unique {l₁ l₂ : List Player} (hp : l₁.Perm l₂)
    (h₁ : List.Sorted plRel l₁) (h₂ : List.Sorted plRel l₂) :
    l₁.map Player.proj_points = l₂.map Player.proj_points := by
  have hperm := hp.map Player.proj_points
  have hs₁ : List.Sorted (fun a b : ℚ => b ≤ a) (l₁.map Player.proj_points) :=
    List.Pairwise.map _ (fun _ _ h => h) h₁
  have hs₂ : List.Sorted (fun a b : ℚ => b ≤ a) (l₂.map Player.proj_points) :=
    List.Pairwise.map _ (fun _ _ h => h) h₂
  exact List.eq_of_perm_of_sorted hperm hs₁ hs₂

/-- C2: for every available pool, teams count and starters mapping, and every
base position with N = teams * starters[pos]: if N is not positive or no
players remain at the position, the replacement value is `inf`; otherwise it
is the `proj_points` at zero-based index `min(N-1, count-1)` of the
position's available players in any descending `proj_points` order. -/
theorem replacement_formula (available : List Player) (teams : ℤ)
    (starters_by_pos : Pos → ℤ) (pos : Pos) :
    (teams * starters_by_pos pos ≤ 0 →
      compute_replacement_points available teams starters_by_pos pos
        = .posInf) ∧
    (available.filter (fun r => r.position = pos) = [] →
      compute_replacement_points available teams starters_by_pos pos
        = .posInf) ∧
    (∀ l : List Player, 0 < teams * starters_by_pos pos →
      l.Perm (available.filter (fun r => r.position = pos)) →
      List.Sorted plRel l → l ≠ [] →
      compute_replacement_points available teams starters_by_pos pos =
        .fin ((l.map Player.proj_points).getD
          (min (teams * starters_by_pos pos - 1).toNat (l.length - 1)) 0)) := by
  refine ⟨fun h => ?_, fun h => ?_, fun l hN hperm hsort hne => ?_⟩
  · simp [compute_replacement_points, h]
  · by_cases hN : teams * starters_by_pos pos ≤ 0
    · simp [compute_replacement_points, hN]
    · simp [compute_replacement_points, hN, h]
  · have hnle : ¬ teams * starters_by_pos pos ≤ 0 := not_le.mpr hN
    have hpoolperm : ((available.filter
        (fun r => r.position = pos)).insertionSort plRel).Perm l :=
      (List.perm_insertionSort plRel _).trans hperm.symm
    have hpoolsorted := List.sorted_insertionSort plRel
      (available.filter (fun r => r.position = pos))
    have hmap := sorted_points_unique hpoolperm hpoolsorted hsort
    have hlen := hpoolperm.length_eq
    have hpool_ne : ¬ ((available.filter
        (fun r => r.position = pos)).insertionSort plRel).isEmpty := by
      rw [List.isEmpty_iff, ← List.length_eq_zero, hlen,
        List.length_eq_zero]
      exact hne
    have hmax : max (teams * starters_by_pos pos - 1) 0
        = teams * starters_by_pos pos - 1 := max_eq_left (by omega)
    simp only [compute_replacement_points, if_neg hnle, if_neg hpool_ne,
      hmap, hlen, hmax]

/-- Witness for C2: on the scenario pool with one RB starter slot and one
team, the RB replacement level is the top RB's 20 points. -/
theorem replacement_formula_witness :
    compute_replacement_points pool4 1 starters4 .RB = .fin 20 := by
  have h := (replacement_formula pool4 1 starters4 .RB).2.2
    [⟨"B", .RB, 20⟩, ⟨"A", .RB, 10⟩] (by decide) (by decide) (by decide)
    (by decide)
  simpa [starters4] using h

theorem filter_erase_comm {α : Type} [DecidableEq α] (p : α → Bool) (b : α)
    (hp : p b = true) (l : List α) :
    (l.erase b).filter p = (l.filter p).erase b := by
  induction l with
  | nil => rfl
  | cons a l ih =>
    by_cases hab : a = b
    · subst hab
      simp [List.erase_cons, List.filter_cons, hp]
    · by_cases hpa : p a
      · simp [List.erase_cons, List.filter_cons, hab, hpa, ih]
      · simp [List.erase_cons, List.filter_cons, hab, hpa, ih]

theorem erase_map_perm {α β : Type} [DecidableEq α] [DecidableEq β]
    (f : α → β) {l : List α} {a : α} (h : a ∈ l) :
    ((l.erase a).map f).Perm ((l.map f).erase (f a)) := by
  have h1 := List.perm_cons_erase h
  have h2 : (l.map f).Perm (f a :: (l.erase a).map f) := by
    simpa using h1.map f
  have h4 := List.perm_cons_erase (List.mem_map_of_mem f h)
  exact (h2.symm.trans h4).cons_inv

theorem sorted_getD_le {l : List ℚ}
    (hs : List.Sorted (fun a b : ℚ => b ≤ a) l) {i j : ℕ} (hij : i ≤ j)
    (hj : j < l.length) (d : ℚ) : l.getD j d ≤ l.getD i d := by
  have hi : i < l.length := lt_of_le_of_lt hij hj
  rw [List.getD_eq_getElem l d hj, List.getD_eq_getElem l d hi]
  rcases lt_or_eq_of_le hij with hlt | heq
  · have := hs.rel_get_of_lt (a := ⟨i, hi⟩) (b := ⟨j, hj⟩) hlt
    simpa using this
  · subst heq
    exact le_refl _

/-- C8 (amended): removing one best (maximal `proj_points`) available player
at a position never raises that position's replacement value, provided at
least one player remains there afterwards.  (The unrestricted monotonicity
claim of the spec fails: see the counterexample.) -/
theorem replacement_nonincreasing_remove_best (available : List Player)
    (teams : ℤ) (starters_by_pos : Pos → ℤ) (pos : Pos) (b : Player)
    (hb : b ∈ available) (hbp : b.position = pos)
    (hmax : ∀ a ∈ available, a.position = pos →
      a.proj_points ≤ b.proj_points)
    (hne : ∃ a ∈ available.erase b, a.position = pos) :
    compute_replacement_points (available.erase b) teams starters_by_pos pos
      ≤ compute_replacement_points available teams starters_by_pos pos := by
  by_cases hN : teams * starters_by_pos pos ≤ 0
  · unfold compute_replacement_points
    rw [if_pos hN, if_pos hN]
  · have hFe : (available.erase b).filter (fun r => r.position = pos)
        = (available.filter (fun r => r.position = pos)).erase b :=
      filter_erase_comm _ b (by simp [hbp]) available
    have hbF : b ∈ available.filter (fun r => r.position = pos) :=
      List.mem_filter.mpr ⟨hb, by simp [hbp]⟩
    have hPperm := List.perm_insertionSort plRel
      (available.filter (fun r => r.position = pos))
    have hP'perm := List.perm_insertionSort plRel
      ((available.erase b).filter (fun r => r.position = pos))
    have hvS : List.Sorted (fun a b : ℚ => b ≤ a)
        (((available.filter (fun r => r.position = pos)).insertionSort
          plRel).map Player.proj_points) :=
      List.Pairwise.map _ (fun _ _ h => h)
        (List.sorted_insertionSort plRel _)
    have hv'S : List.Sorted (fun a b : ℚ => b ≤ a)
        ((((available.erase b).filter
          (fun r => r.position = pos)).insertionSort
          plRel).map Player.proj_points) :=
      List.Pairwise.map _ (fun _ _ h => h)
        (List.sorted_insertionSort plRel _)
    have hbv : b.proj_points ∈
        ((available.filter (fun r => r.position = pos)).insertionSort
          plRel).map Player.proj_points :=
      List.mem_map_of_mem _ (hPperm.mem_iff.mpr hbF)
    obtain ⟨h0, t, hv⟩ : ∃ h0 t,
        ((available.filter (fun r => r.position = pos)).insertionSort
          plRel).map Player.proj_points = h0 :: t := by
      cases hc : ((available.filter (fun r => r.position = pos)).insertionSort
          plRel).map Player.proj_points with
      | nil => rw [hc] at hbv; cases hbv
      | cons x xs => exact ⟨x, xs, rfl⟩
    obtain ⟨a0, ha0P, ha0⟩ := List.mem_map.mp (hv ▸ List.mem_cons_self h0 t)
    have ha0F := hPperm.mem_iff.mp ha0P
    have ha0pos : a0.position = pos := by
      have := (List.mem_filter.mp ha0F).2
      simpa using this
    have h0le : h0 ≤ b.proj_points :=
      ha0 ▸ hmax a0 (List.mem_filter.mp ha0F).1 ha0pos
    have hvS2 : List.Sorted (fun a b : ℚ => b ≤ a) (h0 :: t) := by
      rw [← hv]
      exact hvS
    have hble : b.proj_points ≤ h0 := by
      rw [hv] at hbv
      rcases List.mem_cons.mp hbv with heq | hmem
      · exact le_of_eq heq
      · exact List.rel_of_sorted_cons hvS2 _ hmem
    have hh0 : h0 = b.proj_points := le_antisymm h0le hble
    have hv't : ((((available.erase b).filter
        (fun r => r.position = pos)).insertionSort
        plRel).map Player.proj_points).Perm t := by
      have e1 : ((((available.erase b).filter
          (fun r => r.position = pos)).insertionSort
          plRel).map Player.proj_points).Perm
          (((available.filter (fun r => r.position = pos)).erase b).map
            Player.proj_points) := by
        rw [← hFe]
        exact hP'perm.map _
      have e2 := erase_map_perm Player.proj_points hbF
      have e3 : (((available.filter
          (fun r => r.position = pos)).map Player.proj_points).erase
            b.proj_points).Perm
          ((((available.filter (fun r => r.position = pos)).insertionSort
            plRel).map Player.proj_points).erase b.proj_points) :=
        ((hPperm.map Player.proj_points).erase b.proj_points).symm
      have e4 := (e1.trans e2).trans e3
      rw [hv, ← hh0, List.erase_cons_head] at e4
      exact e4
    have hv'eq : (((available.erase b).filter
        (fun r => r.position = pos)).insertionSort
        plRel).map Player.proj_points = t :=
      List.eq_of_perm_of_sorted hv't hv'S hvS2.of_cons
    have hlv : ((available.filter (fun r => r.position = pos)).insertionSort
        plRel).length = t.length + 1 := by
      have := congrArg List.length hv
      simpa using this
    have hlv' : (((available.erase b).filter
        (fun r => r.position = pos)).insertionSort plRel).length
        = t.length := by
      have := congrArg List.length hv'eq
      simpa using this
    have htne : t ≠ [] := by
      obtain ⟨a1, ha1, ha1pos⟩ := hne
      intro hte
      have ha1F' : a1 ∈ (available.erase b).filter
          (fun r => r.position = pos) :=
        List.mem_filter.mpr ⟨ha1, by simp [ha1pos]⟩
      have : a1.proj_points ∈ (((available.erase b).filter
          (fun r => r.position = pos)).insertionSort
          plRel).map Player.proj_points :=
        List.mem_map_of_mem _ (hP'perm.mem_iff.mpr ha1F')
      rw [hv'eq, hte] at this
      cases this
    have hPne : ¬ ((available.filter
        (fun r => r.position = pos)).insertionSort plRel).isEmpty := by
      rw [List.isEmpty_iff]
      intro hc
      rw [hc] at hlv
      simp at hlv
    have hP'ne : ¬ (((available.erase b).filter
        (fun r => r.position = pos)).insertionSort plRel).isEmpty := by
      rw [List.isEmpty_iff, ← List.length_eq_zero, hlv']
      intro hc
      exact htne (List.length_eq_zero.mp hc)
    unfold compute_replacement_points
    simp only [if_neg hN, if_neg hPne, if_neg hP'ne, hv'eq, hv, hlv, hlv']
    have hL : 1 ≤ t.length := by
      rcases Nat.eq_zero_or_pos t.length with hz | hpos2
      · exact absurd (List.length_eq_zero.mp hz) htne
      · exact hpos2
    set m := (max (teams * starters_by_pos pos - 1) 0).toNat with hm
    have hidx : min m (t.length + 1 - 1) ≤ min m (t.length - 1) + 1 := by
      omega
    have hbound : min m (t.length - 1) + 1 < t.length + 1 := by
      omega
    have hgd : t.getD (min m (t.length - 1)) 0 =
        (h0 :: t).getD (min m (t.length - 1) + 1) 0 := rfl
    rw [EQ.le_def]
    simp only [EQ.ble, decide_eq_true_eq]
    rw [hgd]
    exact sorted_getD_le hvS2 hidx hbound 0

/-- Counterexample to C8 as stated: with two RBs worth 20 and 10 points,
teams = 2 and one RB starter per team, drafting the 10-point RB raises the
RB replacement value from 10 to 20. -/
theorem replacement_monotone_cex :
    compute_replacement_points (availableOf pool2 ∅) 2 startersRB1 .RB
      = .fin 10 ∧
    compute_replacement_points (availableOf pool2 {"A"}) 2 startersRB1 .RB
      = .fin 20 ∧
    ¬ ((EQ.fin 20 : EQ) ≤ .fin 10) :=
  ⟨by decide, by decide, by decide⟩

/-- Witness for C8 (amended): removing the best RB of the two-player pool
leaves the replacement value unchanged at 10. -/
theorem replacement_nonincreasing_remove_best_witness :
    compute_replacement_points (pool2.erase ⟨"B", .RB, 20⟩) 2 startersRB1 .RB
      ≤ compute_replacement_points pool2 2 startersRB1 .RB :=
  replacement_nonincreasing_remove_best pool2 2 startersRB1 .RB
    ⟨"B", .RB, 20⟩ (by decide) (by decide) (by decide) (by decide)

theorem rowRel_iff (a b : ScoreRow) : rowRel a b ↔
    (b.adj_score < a.adj_score ∨ (b.adj_score = a.adj_score ∧
      (b.vorp < a.vorp ∨ (b.vorp = a.vorp ∧
        b.proj_points ≤ a.proj_points)))) := by
  simp [rowRel, rowKey, Prod.Lex.le_iff]

/-- C3: every output row of the candidate scorer satisfies
`vorp = proj_points - replacement[position]` and
`adj_score = vorp * weights[need_state]` (weight 0.1 when the need-state is
unmapped); the output is a permutation of the scored input rows sorted by
adjusted score, then vorp, then projected points, all descending; and on the
four-player scenario pool the ranking starts with D then B. -/
theorem candidate_scores_spec (available : List Player)
    (replacement_points : Pos → EQ) (my_needs : Pos → Option NeedState)
    (weights : NeedState → Option ℚ) :
    ((candidate_scores available replacement_points my_needs weights).Perm
      (available.map (scoreRow replacement_points my_needs weights))) ∧
    (∀ row ∈ candidate_scores available replacement_points my_needs weights,
      row.vorp = EQ.subOf row.proj_points
        (replacement_points row.position) ∧
      row.need_state = (my_needs row.position).getD .blocked ∧
      row.adj_score = row.vorp.mulQ
        ((weights row.need_state).getD (1/10))) ∧
    ((candidate_scores available replacement_points my_needs
        weights).Pairwise (fun a b =>
      b.adj_score < a.adj_score ∨ (b.adj_score = a.adj_score ∧
        (b.vorp < a.vorp ∨ (b.vorp = a.vorp ∧
          b.proj_points ≤ a.proj_points))))) ∧
    ((candidate_scores pool4 (compute_replacement_points pool4 1 starters4)
      (fun p => some (compute_my_need_states roster4 bench0 MyCounts.zero p))
      weightsDefault).map ScoreRow.player = ["D", "B", "C", "A"]) := by
  refine ⟨List.perm_insertionSort rowRel _, ?_, ?_, ?_⟩
  · intro row hrow
    have hmem : row ∈ available.map
        (scoreRow replacement_points my_needs weights) :=
      (List.perm_insertionSort rowRel _).mem_iff.mp hrow
    obtain ⟨r, hr, rfl⟩ := List.mem_map.mp hmem
    exact ⟨rfl, rfl, rfl⟩
  · have hs := List.sorted_insertionSort rowRel
      (available.map (scoreRow replacement_points my_needs weights))
    exact hs.imp (fun h => (rowRel_iff _ _).mp h)
  · have hRB : compute_replacement_points pool4 1 starters4 .RB
        = .fin 20 := by decide
    have hWR : compute_replacement_points pool4 1 starters4 .WR
        = .fin 25 := by decide
    have hnRB : compute_my_need_states roster4 bench0 MyCounts.zero .RB
        = .need := by decide
    have hnWR : compute_my_need_states roster4 bench0 MyCounts.zero .WR
        = .need := by decide
    unfold candidate_scores
    show List.map ScoreRow.player
      (List.insertionSort rowRel
        (List.map (scoreRow (compute_replacement_points pool4 1 starters4)
          (fun p => some (compute_my_need_states roster4 bench0
            MyCounts.zero p))
          weightsDefault)
          [⟨"A", .RB, 10⟩, ⟨"B", .RB, 20⟩, ⟨"C", .WR, 15⟩, ⟨"D", .WR, 25⟩]))
      = ["D", "B", "C", "A"]
    simp only [List.map_cons, List.map_nil, scoreRow, hRB, hWR, hnRB, hnWR,
      Option.getD_some, weightsDefault, EQ.subOf, EQ.mulQ]
    norm_num
    decide

/-- Witness for C3: on a one-player pool with an infinite replacement level,
the single output row carries `vorp = 10 - inf = -inf`, the `blocked` default
need-state, and `adj_score = vorp * 1`. -/
theorem candidate_scores_spec_witness :
    (EQ.negInf = EQ.subOf 10 EQ.posInf) ∧
    (NeedState.blocked = (Option.getD none NeedState.blocked)) ∧
    (EQ.negInf = EQ.negInf.mulQ (Option.getD (some 1) (1/10))) := by
  have h := (candidate_scores_spec [⟨"A", .RB, 10⟩] (fun _ => EQ.posInf)
    (fun _ => none) (fun _ => some 1)).2.1
    ⟨"A", .RB, 10, .negInf, .negInf, .blocked⟩ (by decide)
  exact h

end DraftHelper
